import Mathlib

/-!
# Verification of the `BloomFilter` repository

Shallow embedding of `src/bloom filter/BloomFilter/BloomFilter.py`.

The Python class `bloomfilter` keeps a bit array (`self.__bitarray`, a
`bitarray` of length `self.m`), an element counter (`self.__size`), a hash
count (`self.k`) and a bit-array length (`self.m`).  Every hashed position is
computed as `mmh3.hash(str(item), seed=seed) % self.m`, where `mmh3.hash`
returns a signed integer and Python's `%` with a positive modulus returns a
value in `[0, m)`.  We model `mmh3.hash(str(·), seed=·)` as an arbitrary
function `H : String → Nat → Int` (items are taken already serialized to
strings, which is what `str(...)` produces), and Python's `%` by `Int.emod`,
which agrees with Python's `%` on positive moduli.

The stored attributes `self.n` and `self.b` are written at `__init__` and
never read again by any method except through `self.m` (already derived), so
the operational state keeps only `k`, `m`, the bit array and the size.
Python `for seed in range(self.k)` iterates over `0..k-1` and is empty for
`k ≤ 0`; `Int.toNat` reproduces this.  Mutation of a `deepcopy` in the source
becomes construction of a new record value here.
-/

namespace BloomFilterPy

/-- Operational state of a Python `bloomfilter` instance:
`k` = `self.k` (hash count, kept as an integer because the constructor
accepts any nonzero override including negative ones), `m` = `self.m`
(bit-array length), `bitarray` = `self.__bitarray`, `size` = `self.__size`. -/
structure bloomfilter where
  k : Int
  m : Nat
  bitarray : List Bool
  size : Nat
deriving DecidableEq

/-- `mmh3.hash(str(item), seed=seed) % m` as a bit position:
the signed hash reduced with Python's `%` (= `Int.emod`), then read as a
natural number index. -/
def hashPos (H : String → Nat → Int) (m : Nat) (item : String) (seed : Nat) : Nat :=
  (H item seed % (m : Int)).toNat

/-- The inner loop `for seed in range(k): bits[hash(item, seed) % m] = 1`. -/
def setItemBits (H : String → Nat → Int) (k : Int) (m : Nat)
    (bs : List Bool) (item : String) : List Bool :=
  (List.range k.toNat).foldl (fun b seed => b.set (hashPos H m item seed) true) bs

/-- The double loop `for sample in samples: for seed in range(k): ...`
shared by `__init__` and `__call__`. -/
def setSamplesBits (H : String → Nat → Int) (k : Int) (m : Nat)
    (bs : List Bool) (samples : List String) : List Bool :=
  samples.foldl (fun b s => setItemBits H k m b s) bs

/-- `self.b = - math.log(epsilon) / (math.log(2)) ** 2` from `__init__`. -/
noncomputable def bVal (epsilon : ℝ) : ℝ :=
  - Real.log epsilon / (Real.log 2) ^ 2

/-- `self.k = math.ceil(self.b * math.log(2)) if k==0 else k` from `__init__`. -/
noncomputable def kVal (epsilon : ℝ) (k : ℤ) : ℤ :=
  if k = 0 then ⌈bVal epsilon * Real.log 2⌉ else k

/-- `self.m = math.ceil(self.n * self.b)` from `__init__`. -/
noncomputable def mVal (n : ℝ) (epsilon : ℝ) : ℤ :=
  ⌈n * bVal epsilon⌉

/-- The state built by the tail of `__init__` once `k` and `m` are fixed:
an all-zero bit array of length `m` (`bitarray('0' * m)`), `size` set to
`len(samples)`, then every sample hashed in. -/
def mkBF (H : String → Nat → Int) (k : Int) (m : Nat) (samples : List String) : bloomfilter :=
  { k := k
    m := m
    size := samples.length
    bitarray := setSamplesBits H k m (List.replicate m false) samples }

/-- `__init__(n, samples, epsilon, k)`: validation of `n` and `epsilon`
exactly as in the source (`if n <= 0: raise`, `if epsilon <= 0 or
epsilon >= 1: raise`, with the source's messages), then parameter
derivation and population.  Raising `InputException` is modeled by
`Except.error` carrying the message. -/
noncomputable def construct (H : String → Nat → Int) (n : ℝ) (samples : List String)
    (epsilon : ℝ) (k : ℤ) : Except String bloomfilter :=
  if n ≤ 0 then .error "n should be positive"
  else if epsilon ≤ 0 ∨ 1 ≤ epsilon then .error "ε range should be (0, 1)"
  else .ok (mkBF H (kVal epsilon k) (mVal n epsilon).toNat samples)

/-- The merge loop of `__add__`:
`for i in range(tmp.m): tmp.__bitarray[i] |= other.__bitarray[i]`. -/
def orLoop (m : Nat) (bs other : List Bool) : List Bool :=
  (List.range m).foldl (fun b i => b.set i (b.getD i false || other.getD i false)) bs

/-- The `isinstance(other, bloomfilter)` branch of `__add__` (Merge):
compatibility checks in source order, then a deep copy of `self` whose size
is increased by `other.__size` and whose bit array is OR-ed with `other`'s. -/
def addFilter (self other : bloomfilter) : Except String bloomfilter :=
  if other.k ≠ self.k then
    .error "bloom filters which have different hash functions cannot be added."
  else if other.m ≠ self.m then
    .error "bloom filters which have different size cannot be added."
  else
    .ok { self with
          size := self.size + other.size
          bitarray := orLoop self.m self.bitarray other.bitarray }

/-- The `else` branch of `__add__` (single-element Insert): a deep copy of
`self` with `size` incremented and `other`'s `k` hashed positions set. -/
def addElem (H : String → Nat → Int) (self : bloomfilter) (item : String) : bloomfilter :=
  { self with
    size := self.size + 1
    bitarray := setItemBits H self.k self.m self.bitarray item }

/-- `__call__(samples)` (Populate): fails when any bit is already set
(`self.__bitarray.any()`), with the source's message; otherwise adds
`len(samples)` to the size and hashes every sample in, mutating `self`
(modeled by returning the post-state). -/
def call (H : String → Nat → Int) (self : bloomfilter) (samples : List String) :
    Except String bloomfilter :=
  if self.bitarray.any id then
    .error "Some elements have already been in this bloom filter. If user want to add elements into this bloom filter, please create a new one and add them together."
  else
    .ok { self with
          size := self.size + samples.length
          bitarray := setSamplesBits H self.k self.m self.bitarray samples }

/-- `__contains__(item)`: `False` as soon as one of the `k` hashed positions
holds a zero bit, `True` otherwise. -/
def contains (H : String → Nat → Int) (self : bloomfilter) (item : String) : Bool :=
  (List.range self.k.toNat).all (fun seed => self.bitarray.getD (hashPos H self.m item seed) false)

/-- `__len__`: returns `self.__size`. -/
def lenBF (self : bloomfilter) : Nat := self.size

/-- `actual_epsilon`:
`0.5 ** ((self.m / self.__size) * math.log(2)) if self.__size != 0 else 0`,
with `**` on floats modeled by `Real.rpow`. -/
noncomputable def actual_epsilon (self : bloomfilter) : ℝ :=
  if self.size ≠ 0 then
    (0.5 : ℝ) ^ (((self.m : ℝ) / (self.size : ℝ)) * Real.log 2)
  else 0

/-- Modelled from the spec (§4.4 ActualErrorRate, claim C8), for comparison
with the source's `actual_epsilon`: returns 0 when the element count is 0,
otherwise `0.5 ^ ((bitLength / elementCount) · ln 2)`. -/
noncomputable def specActualErrorRate (f : bloomfilter) : ℝ :=
  if f.size = 0 then 0
  else (0.5 : ℝ) ^ (((f.m : ℝ) / (f.size : ℝ)) * Real.log 2)

/-- The list of bit positions an item touches: `hash(item, seed) % m` for
`seed` in `range(k)`. -/
def itemPositions (H : String → Nat → Int) (k : Int) (m : Nat) (item : String) : List Nat :=
  (List.range k.toNat).map (hashPos H m item)

/-- Filters reachable through the public API together with the list of items
inserted into them: construction with valid parameters and an initial sample
list, single-element insert (`__add__`), bulk population (`__call__`), and
merge (`__add__` on two filters). -/
inductive Reach (H : String → Nat → Int) : bloomfilter → List String → Prop where
  | base (n epsilon : ℝ) (k : ℤ) (samples : List String) (f : bloomfilter) :
      construct H n samples epsilon k = .ok f → Reach H f samples
  | insert (f : bloomfilter) (S : List String) (x : String) :
      Reach H f S → Reach H (addElem H f x) (x :: S)
  | populate (f : bloomfilter) (S : List String) (samples : List String) (g : bloomfilter) :
      Reach H f S → call H f samples = .ok g → Reach H g (samples ++ S)
  | merge (f₁ : bloomfilter) (S₁ : List String) (f₂ : bloomfilter) (S₂ : List String)
      (g : bloomfilter) :
      Reach H f₁ S₁ → Reach H f₂ S₂ → addFilter f₁ f₂ = .ok g → Reach H g (S₁ ++ S₂)

/-- A concrete stand-in for `mmh3.hash` used to evaluate the model on
closed inputs; any function of this type is a valid instantiation. -/
def hDemo : String → Nat → Int := fun s seed => (s.length : Int) + seed

end BloomFilterPy

namespace BloomFilterPy

/-! ## Basic lemmas about the bit-store operations -/

lemma getD_set (bs : List Bool) (p i : Nat) (v : Bool) :
    (bs.set p v).getD i false = if p = i ∧ p < bs.length then v else bs.getD i false := by
  induction bs generalizing p i with
  | nil => simp
  | cons b bs ih =>
    cases p with
    | zero => cases i <;> simp
    | succ p =>
      cases i with
      | zero => simp
      | succ i =>
        simp only [List.set_cons_succ, List.getD_cons_succ, ih p i, List.length_cons]
        have hiff : (p = i ∧ p < bs.length) ↔ (p + 1 = i + 1 ∧ p + 1 < bs.length + 1) := by omega
        by_cases hc : p = i ∧ p < bs.length
        · rw [if_pos hc, if_pos (hiff.mp hc)]
        · rw [if_neg hc, if_neg (fun h => hc (hiff.mpr h))]

lemma length_foldl_set {α : Type} (ps : List α) (pos : α → Nat)
    (val : List Bool → α → Bool) (bs : List Bool) :
    (ps.foldl (fun b p => b.set (pos p) (val b p)) bs).length = bs.length := by
  induction ps generalizing bs with
  | nil => rfl
  | cons p ps ih =>
    simp only [List.foldl_cons]
    rw [ih, List.length_set]

lemma getD_foldl_set_mono {α : Type} (ps : List α) (pos : α → Nat)
    (val : List Bool → α → Bool)
    (hval : ∀ b p, b.getD (pos p) false = true → val b p = true)
    (bs : List Bool) (i : Nat) (h : bs.getD i false = true) :
    (ps.foldl (fun b p => b.set (pos p) (val b p)) bs).getD i false = true := by
  induction ps generalizing bs with
  | nil => exact h
  | cons p ps ih =>
    simp only [List.foldl_cons]
    refine ih _ ?_
    rw [getD_set]
    by_cases hc : pos p = i ∧ pos p < bs.length
    · rw [if_pos hc]
      exact hval bs p (hc.1 ▸ h)
    · rw [if_neg hc]; exact h

lemma getD_foldl_setTrue_hit {α : Type} (ps : List α) (pos : α → Nat)
    (bs : List Bool) (p : α) (hp : p ∈ ps) (hlt : pos p < bs.length) :
    (ps.foldl (fun b q => b.set (pos q) true) bs).getD (pos p) false = true := by
  induction ps generalizing bs with
  | nil => cases hp
  | cons q ps ih =>
    simp only [List.foldl_cons]
    rcases List.mem_cons.mp hp with h | h
    · subst h
      refine getD_foldl_set_mono ps pos (fun _ _ => true) (fun _ _ _ => rfl) _ _ ?_
      rw [getD_set, if_pos ⟨rfl, hlt⟩]
    · exact ih _ h (by rw [List.length_set]; exact hlt)

lemma getD_foldl_setTrue_frame {α : Type} (ps : List α) (pos : α → Nat)
    (bs : List Bool) (i : Nat) (hi : ∀ p ∈ ps, pos p ≠ i) :
    (ps.foldl (fun b q => b.set (pos q) true) bs).getD i false = bs.getD i false := by
  induction ps generalizing bs with
  | nil => rfl
  | cons q ps ih =>
    simp only [List.foldl_cons]
    rw [ih _ (fun p hp => hi p (List.mem_cons_of_mem _ hp)), getD_set,
      if_neg (fun h => hi q (List.mem_cons_self _ _) h.1)]

lemma setItemBits_length (H : String → Nat → Int) (k : Int) (m : Nat)
    (bs : List Bool) (item : String) :
    (setItemBits H k m bs item).length = bs.length :=
  length_foldl_set (List.range k.toNat) (hashPos H m item) (fun _ _ => true) bs

lemma setSamplesBits_length (H : String → Nat → Int) (k : Int) (m : Nat)
    (bs : List Bool) (samples : List String) :
    (setSamplesBits H k m bs samples).length = bs.length := by
  induction samples generalizing bs with
  | nil => rfl
  | cons s ss ih =>
    show (setSamplesBits H k m (setItemBits H k m bs s) ss).length = bs.length
    rw [ih, setItemBits_length]

lemma orLoop_length (m : Nat) (bs other : List Bool) :
    (orLoop m bs other).length = bs.length :=
  length_foldl_set (List.range m) id (fun b i => b.getD i false || other.getD i false) bs

lemma setItemBits_mono (H : String → Nat → Int) (k : Int) (m : Nat)
    (bs : List Bool) (item : String) (i : Nat) (h : bs.getD i false = true) :
    (setItemBits H k m bs item).getD i false = true :=
  getD_foldl_set_mono (List.range k.toNat) (hashPos H m item) (fun _ _ => true)
    (fun _ _ _ => rfl) bs i h

lemma setItemBits_hit (H : String → Nat → Int) (k : Int) (m : Nat)
    (bs : List Bool) (item : String) (seed : Nat) (hseed : seed < k.toNat)
    (hlt : hashPos H m item seed < bs.length) :
    (setItemBits H k m bs item).getD (hashPos H m item seed) false = true :=
  getD_foldl_setTrue_hit (List.range k.toNat) (hashPos H m item) bs seed
    (List.mem_range.mpr hseed) hlt

lemma setItemBits_frame (H : String → Nat → Int) (k : Int) (m : Nat)
    (bs : List Bool) (item : String) (i : Nat) (hi : i ∉ itemPositions H k m item) :
    (setItemBits H k m bs item).getD i false = bs.getD i false :=
  getD_foldl_setTrue_frame (List.range k.toNat) (hashPos H m item) bs i
    (fun _ hp hne => hi (hne ▸ List.mem_map_of_mem (hashPos H m item) hp))

lemma setSamplesBits_mono (H : String → Nat → Int) (k : Int) (m : Nat)
    (bs : List Bool) (samples : List String) (i : Nat) (h : bs.getD i false = true) :
    (setSamplesBits H k m bs samples).getD i false = true := by
  induction samples generalizing bs with
  | nil => exact h
  | cons s ss ih =>
    exact ih (setItemBits H k m bs s) (setItemBits_mono H k m bs s i h)

lemma setSamplesBits_hit (H : String → Nat → Int) (k : Int) (m : Nat)
    (bs : List Bool) (samples : List String) (x : String) (seed : Nat)
    (hx : x ∈ samples) (hseed : seed < k.toNat) (hlt : hashPos H m x seed < bs.length) :
    (setSamplesBits H k m bs samples).getD (hashPos H m x seed) false = true := by
  induction samples generalizing bs with
  | nil => cases hx
  | cons s ss ih =>
    show (setSamplesBits H k m (setItemBits H k m bs s) ss).getD (hashPos H m x seed) false = true
    rcases List.mem_cons.mp hx with h | h
    · subst h
      exact setSamplesBits_mono H k m _ ss _ (setItemBits_hit H k m bs x seed hseed hlt)
    · exact ih _ h (by rw [setItemBits_length]; exact hlt)

lemma orLoop_getD (m : Nat) (bs other : List Bool) (i : Nat) :
    (orLoop m bs other).getD i false =
      if i < m ∧ i < bs.length then bs.getD i false || other.getD i false
      else bs.getD i false := by
  induction m with
  | zero => simp [orLoop]
  | succ m ih =>
    have hstep : orLoop (m + 1) bs other =
        (orLoop m bs other).set m
          ((orLoop m bs other).getD m false || other.getD m false) := by
      simp [orLoop, List.range_succ]
    rw [hstep, getD_set, orLoop_length]
    by_cases hm : m = i ∧ m < bs.length
    · rw [if_pos hm]
      obtain ⟨rfl, hlen⟩ := hm
      rw [ih, if_neg (by omega), if_pos ⟨by omega, hlen⟩]
    · rw [if_neg hm, ih]
      by_cases hi : i < m ∧ i < bs.length
      · rw [if_pos hi, if_pos ⟨by omega, hi.2⟩]
      · rw [if_neg hi, if_neg (by omega)]

lemma contains_iff (H : String → Nat → Int) (f : bloomfilter) (x : String) :
    contains H f x = true ↔
      ∀ seed < f.k.toNat, f.bitarray.getD (hashPos H f.m x seed) false = true := by
  simp [contains, List.all_eq_true, List.mem_range]

end BloomFilterPy

namespace BloomFilterPy

/-! ## Positions, construction and the `Except`-returning operations -/

lemma emod_nonneg_lt (h : ℤ) (m : Nat) (hm : 0 < m) :
    0 ≤ h % (m : ℤ) ∧ h % (m : ℤ) < (m : ℤ) :=
  ⟨Int.emod_nonneg h (by exact_mod_cast hm.ne.symm),
   Int.emod_lt_of_pos h (by exact_mod_cast hm)⟩

lemma hashPos_lt (H : String → Nat → Int) (m : Nat) (hm : 0 < m)
    (item : String) (seed : Nat) : hashPos H m item seed < m := by
  unfold hashPos
  obtain ⟨h1, h2⟩ := emod_nonneg_lt (H item seed) m hm
  omega

lemma mkBF_length (H : String → Nat → Int) (k : Int) (m : Nat) (samples : List String) :
    (mkBF H k m samples).bitarray.length = m := by
  show (setSamplesBits H k m (List.replicate m false) samples).length = m
  rw [setSamplesBits_length, List.length_replicate]

lemma construct_ok {H : String → Nat → Int} {n : ℝ} {samples : List String}
    {epsilon : ℝ} {k : ℤ} {f : bloomfilter}
    (h : construct H n samples epsilon k = .ok f) :
    0 < n ∧ 0 < epsilon ∧ epsilon < 1 ∧
      f = mkBF H (kVal epsilon k) (mVal n epsilon).toNat samples := by
  unfold construct at h
  by_cases h1 : n ≤ 0
  · rw [if_pos h1] at h; cases h
  · rw [if_neg h1] at h
    by_cases h2 : epsilon ≤ 0 ∨ 1 ≤ epsilon
    · rw [if_pos h2] at h; cases h
    · rw [if_neg h2] at h
      push_neg at h1 h2
      injection h with h
      exact ⟨h1, h2.1, h2.2, h.symm⟩

lemma bVal_pos {epsilon : ℝ} (he0 : 0 < epsilon) (he1 : epsilon < 1) :
    0 < bVal epsilon := by
  unfold bVal
  have hlog : Real.log epsilon < 0 := Real.log_neg he0 he1
  have h2 : (0 : ℝ) < (Real.log 2) ^ 2 := by
    have : Real.log 2 ≠ 0 := by
      have := Real.log_pos (by norm_num : (1:ℝ) < 2)
      linarith
    positivity
  exact div_pos (by linarith) h2

lemma mVal_toNat_pos {n epsilon : ℝ} (hn : 0 < n) (he0 : 0 < epsilon)
    (he1 : epsilon < 1) : 0 < (mVal n epsilon).toNat := by
  have hpos : (0 : ℤ) < mVal n epsilon :=
    Int.ceil_pos.mpr (mul_pos hn (bVal_pos he0 he1))
  omega

lemma call_ok {H : String → Nat → Int} {f : bloomfilter} {samples : List String}
    {g : bloomfilter} (h : call H f samples = .ok g) :
    f.bitarray.any id = false ∧
      g = { f with
            size := f.size + samples.length
            bitarray := setSamplesBits H f.k f.m f.bitarray samples } := by
  unfold call at h
  by_cases ha : f.bitarray.any id = true
  · rw [if_pos ha] at h; cases h
  · rw [if_neg ha] at h
    injection h with h
    exact ⟨by simpa using ha, h.symm⟩

lemma addFilter_ok {f₁ f₂ g : bloomfilter} (h : addFilter f₁ f₂ = .ok g) :
    f₂.k = f₁.k ∧ f₂.m = f₁.m ∧
      g = { f₁ with
            size := f₁.size + f₂.size
            bitarray := orLoop f₁.m f₁.bitarray f₂.bitarray } := by
  unfold addFilter at h
  by_cases h1 : f₂.k ≠ f₁.k
  · rw [if_pos h1] at h; cases h
  · rw [if_neg h1] at h
    by_cases h2 : f₂.m ≠ f₁.m
    · rw [if_pos h2] at h; cases h
    · rw [if_neg h2] at h
      injection h with h
      exact ⟨not_not.mp h1, not_not.mp h2, h.symm⟩

/-- Every API-reachable filter has a well-sized bit array, a positive bit
length, and a set bit at every hashed position of every inserted item. -/
lemma Reach_invariant {H : String → Nat → Int} {f : bloomfilter} {S : List String}
    (h : Reach H f S) :
    f.bitarray.length = f.m ∧ 0 < f.m ∧
      ∀ x ∈ S, ∀ seed < f.k.toNat,
        f.bitarray.getD (hashPos H f.m x seed) false = true := by
  induction h with
  | base n epsilon k samples f hc =>
    obtain ⟨hn, he0, he1, rfl⟩ := construct_ok hc
    have hm : 0 < (mVal n epsilon).toNat := mVal_toNat_pos hn he0 he1
    refine ⟨mkBF_length .., hm, fun x hx seed hs => ?_⟩
    exact setSamplesBits_hit _ _ _ _ _ _ _ hx hs
      (by rw [List.length_replicate]; exact hashPos_lt _ _ hm _ _)
  | insert f S x _ ih =>
    obtain ⟨hlen, hm, hbits⟩ := ih
    refine ⟨by simpa [addElem, setItemBits_length] using hlen, hm, fun y hy seed hs => ?_⟩
    show (setItemBits H f.k f.m f.bitarray x).getD (hashPos H f.m y seed) false = true
    rcases List.mem_cons.mp hy with hxy | hyS
    · subst hxy
      exact setItemBits_hit _ _ _ _ _ _ hs (by rw [hlen]; exact hashPos_lt H f.m hm _ _)
    · exact setItemBits_mono _ _ _ _ _ _ (hbits y hyS seed hs)
  | populate f S samples g _ hok ih =>
    obtain ⟨hlen, hm, hbits⟩ := ih
    obtain ⟨-, rfl⟩ := call_ok hok
    refine ⟨by simpa [setSamplesBits_length] using hlen, hm, fun y hy seed hs => ?_⟩
    show (setSamplesBits H f.k f.m f.bitarray samples).getD (hashPos H f.m y seed) false = true
    rcases List.mem_append.mp hy with hys | hyS
    · exact setSamplesBits_hit _ _ _ _ _ _ _ hys hs
        (by rw [hlen]; exact hashPos_lt H f.m hm _ _)
    · exact setSamplesBits_mono _ _ _ _ _ _ (hbits y hyS seed hs)
  | merge f₁ S₁ f₂ S₂ g _ _ hok ih₁ ih₂ =>
    obtain ⟨hlen₁, hm₁, hbits₁⟩ := ih₁
    obtain ⟨hlen₂, hm₂, hbits₂⟩ := ih₂
    obtain ⟨hk, hm, rfl⟩ := addFilter_ok hok
    refine ⟨by simpa [orLoop_length] using hlen₁, hm₁, fun y hy seed hs => ?_⟩
    show (orLoop f₁.m f₁.bitarray f₂.bitarray).getD (hashPos H f₁.m y seed) false = true
    have hpos : hashPos H f₁.m y seed < f₁.m := hashPos_lt _ _ hm₁ _ _
    rw [orLoop_getD, if_pos ⟨hpos, hlen₁ ▸ hpos⟩]
    rcases List.mem_append.mp hy with hy₁ | hy₂
    · rw [hbits₁ y hy₁ seed hs, Bool.true_or]
    · have := hbits₂ y hy₂ seed (by rw [hk]; exact hs)
      rw [hm] at this
      rw [this, Bool.or_true]

/-- C1.  No false negatives: for every filter built with valid parameters
and every item inserted into it — via the construction-time sample list,
via single-element Insert (`__add__` with a non-filter operand), via
Populate (`__call__`), or transitively via Merge — `__contains__` returns
`true` on the resulting filter.  `Reach H f S` records exactly the filters
obtainable that way together with the list `S` of all items inserted. -/
theorem no_false_negatives (H : String → Nat → Int) (f : bloomfilter)
    (S : List String) (h : Reach H f S) :
    ∀ x ∈ S, contains H f x = true := by
  intro x hx
  obtain ⟨-, -, hbits⟩ := Reach_invariant h
  exact (contains_iff H f x).mpr (fun seed hs => hbits x hx seed hs)

/-- Witness for C1: a concrete filter built by `__init__` with valid
parameters `n = 1`, `ε = 1/2`, derived `k`, and sample list `["a"]`,
then extended with `"b"` through the Insert branch of `__add__`;
both items test positive. -/
theorem no_false_negatives_witness :
    ∃ f g : bloomfilter, Reach hDemo f ["a"] ∧ Reach hDemo g ["b", "a"] ∧
      contains hDemo f "a" = true ∧ contains hDemo g "b" = true ∧
      contains hDemo g "a" = true := by
  have hc : construct hDemo 1 ["a"] (1/2) 0 =
      .ok (mkBF hDemo (kVal (1/2) 0) (mVal 1 (1/2)).toNat ["a"]) := by
    unfold construct
    rw [if_neg (by norm_num), if_neg (by norm_num)]
  have hf : Reach hDemo (mkBF hDemo (kVal (1/2) 0) (mVal 1 (1/2)).toNat ["a"]) ["a"] :=
    Reach.base 1 (1/2) 0 ["a"] _ hc
  have hg : Reach hDemo
      (addElem hDemo (mkBF hDemo (kVal (1/2) 0) (mVal 1 (1/2)).toNat ["a"]) "b")
      ["b", "a"] := Reach.insert _ _ _ hf
  exact ⟨_, _, hf, hg,
    no_false_negatives hDemo _ _ hf "a" (by simp),
    no_false_negatives hDemo _ _ hg "b" (by simp),
    no_false_negatives hDemo _ _ hg "a" (by simp)⟩

end BloomFilterPy

namespace BloomFilterPy

/-! ## Parameter derivation at n = 1000, ε = 0.01 (claim C2) -/

lemma log_five_fourth_bounds :
    (0.223142 : ℝ) < Real.log (5 / 4) ∧ Real.log (5 / 4) < 0.223146 := by
  have hx : |(-(1/4) : ℝ)| = 1 / 4 := by
    rw [abs_neg, abs_of_pos] <;> norm_num
  have h := Real.abs_log_sub_add_sum_range_le (x := -(1/4 : ℝ)) (by rw [hx]; norm_num) 9
  rw [hx] at h
  have h54 : (1 : ℝ) - -(1/4) = 5 / 4 := by norm_num
  rw [h54] at h
  have hsum : (∑ i ∈ Finset.range 9, (-(1/4) : ℝ) ^ (i + 1) / (i + 1)) =
      -(36852331 / 165150720) := by
    simp [Finset.sum_range_succ]
    norm_num
  rw [hsum] at h
  have hbound : ((1 : ℝ)/4) ^ (9 + 1) / (1 - 1/4) = 1 / 786432 := by norm_num
  rw [hbound, abs_le] at h
  constructor <;> [linarith [h.1]; linarith [h.2]]

lemma log_hundred_eq : Real.log 100 = 6 * Real.log 2 + 2 * Real.log (5 / 4) := by
  have h1 : (100 : ℝ) = 2 ^ 6 * (5 / 4) ^ 2 := by norm_num
  rw [h1, Real.log_mul (by norm_num) (by norm_num), Real.log_pow, Real.log_pow]
  push_cast
  ring

lemma bVal_centi_eq : bVal (1 / 100) = Real.log 100 / (Real.log 2) ^ 2 := by
  unfold bVal
  rw [show (1/100 : ℝ) = (100 : ℝ)⁻¹ by norm_num, Real.log_inv, neg_neg]

lemma log_two_sq_bounds :
    (0.6931471803 : ℝ) ^ 2 < (Real.log 2) ^ 2 ∧
      (Real.log 2) ^ 2 < (0.6931471808 : ℝ) ^ 2 := by
  have h1 := Real.log_two_gt_d9
  have h2 := Real.log_two_lt_d9
  constructor <;> nlinarith [h1, h2]

lemma bVal_centi_bounds : (9.585 : ℝ) < bVal (1 / 100) ∧ bVal (1 / 100) < 9.5851 := by
  obtain ⟨h54l, h54u⟩ := log_five_fourth_bounds
  have h2l := Real.log_two_gt_d9
  have h2u := Real.log_two_lt_d9
  obtain ⟨hsql, hsqu⟩ := log_two_sq_bounds
  have hsqpos : (0 : ℝ) < (Real.log 2) ^ 2 := by nlinarith
  rw [bVal_centi_eq, log_hundred_eq]
  constructor
  · rw [lt_div_iff hsqpos]
    nlinarith [hsqu, h2l, h54l]
  · rw [div_lt_iff hsqpos]
    nlinarith [hsql, h2u, h54u]

lemma kVal_centi : kVal (1 / 100) 0 = 7 := by
  unfold kVal
  rw [if_pos rfl]
  have h2pos : (0 : ℝ) < Real.log 2 := Real.log_pos (by norm_num)
  have heq : bVal (1 / 100) * Real.log 2 = Real.log 100 / Real.log 2 := by
    rw [bVal_centi_eq]
    field_simp
    ring
  have h64 : Real.log 64 < Real.log 100 := Real.log_lt_log (by norm_num) (by norm_num)
  have h128 : Real.log 100 ≤ Real.log 128 :=
    (Real.log_le_log_iff (by norm_num) (by norm_num)).mpr (by norm_num)
  have h64e : Real.log 64 = 6 * Real.log 2 := by
    rw [show (64 : ℝ) = 2 ^ 6 by norm_num, Real.log_pow]
    push_cast
    ring
  have h128e : Real.log 128 = 7 * Real.log 2 := by
    rw [show (128 : ℝ) = 2 ^ 7 by norm_num, Real.log_pow]
    push_cast
    ring
  rw [heq, Int.ceil_eq_iff]
  refine ⟨?_, ?_⟩
  · push_cast
    rw [lt_div_iff h2pos]
    linarith
  · push_cast
    rw [div_le_iff h2pos]
    linarith

lemma mVal_milli_centi : mVal 1000 (1 / 100) = 9586 := by
  obtain ⟨hl, hu⟩ := bVal_centi_bounds
  unfold mVal
  rw [Int.ceil_eq_iff]
  constructor
  · push_cast
    linarith
  · push_cast
    linarith

/-- C2, counterexample: with `n = 1000` and `ε = 0.01` the source formula
`m = ceil(n · b)` yields `m = 9586` (since `1000·b ≈ 9585.058`), so the
claimed value `m = 9585` is wrong. -/
theorem mVal_milli_centi_ne_9585 : mVal 1000 (1 / 100) ≠ 9585 := by
  rw [mVal_milli_centi]
  decide

/-- C2 (amended).  Parameter derivation is deterministic — `bVal`, `kVal`,
`mVal` are functions of `(n, ε, k)` translated from `__init__` — and at
`n = 1000`, `ε = 0.01` it yields `b ≈ 9.585` (strictly between `9.585` and
`9.5851`), `k = ⌈b·ln 2⌉ = 7`, and `m = ⌈1000·b⌉ = 9586` (the claim said
`9585`; the ceiling of `9585.058...` is `9586`). -/
theorem param_derivation_values :
    ((9.585 : ℝ) < bVal (1 / 100) ∧ bVal (1 / 100) < 9.5851) ∧
      kVal (1 / 100) 0 = 7 ∧ mVal 1000 (1 / 100) = 9586 :=
  ⟨bVal_centi_bounds, kVal_centi, mVal_milli_centi⟩

end BloomFilterPy

namespace BloomFilterPy

/-! ## Small facts about `getD` and `any` -/

lemma getD_false_of_le (bs : List Bool) (i : Nat) (h : bs.length ≤ i) :
    bs.getD i false = false := by
  induction bs generalizing i with
  | nil => rfl
  | cons b bs ih =>
    cases i with
    | zero => simp at h
    | succ i => exact ih i (by simpa using h)

lemma getD_true_lt_length (bs : List Bool) (i : Nat) (h : bs.getD i false = true) :
    i < bs.length := by
  by_contra hc
  rw [getD_false_of_le bs i (by omega)] at h
  cases h

lemma any_of_getD (bs : List Bool) (i : Nat) (h : bs.getD i false = true) :
    bs.any id = true := by
  induction bs generalizing i with
  | nil => cases h
  | cons b bs ih =>
    cases i with
    | zero =>
      rw [List.getD_cons_zero] at h
      simp [List.any_cons, h]
    | succ i =>
      rw [List.getD_cons_succ] at h
      simp [List.any_cons, ih i h]

lemma any_replicate_false (n : Nat) : (List.replicate n false).any id = false := by
  induction n with
  | zero => rfl
  | succ n ih => simpa [List.replicate_succ] using ih

/-! ## Claims C10, C7 and C6 -/

/-- C10.  Every bit-array index the code uses is `hash(item, seed) % m`:
the possibly negative signed hash reduced by Python's `%` (`Int.emod`) with
the positive modulus `m` is non-negative, and the resulting index is
strictly below `m` — construction, Insert, Populate and Contains all access
the bit array only at `hashPos`, so no access is out of bounds. -/
theorem hash_index_in_range (H : String → Nat → Int) (m : Nat) (hm : 0 < m)
    (item : String) (seed : Nat) :
    0 ≤ H item seed % (m : ℤ) ∧ hashPos H m item seed < m :=
  ⟨(emod_nonneg_lt (H item seed) m hm).1, hashPos_lt H m hm item seed⟩

/-- Witness for C10 at a concrete hash, modulus, item and seed. -/
theorem hash_index_in_range_witness :
    0 < 2 ∧ 0 ≤ hDemo "a" 0 % (2 : ℤ) ∧ hashPos hDemo 2 "a" 0 < 2 :=
  ⟨by decide, hash_index_in_range hDemo 2 (by decide) "a" 0⟩

/-- C7.  The bit store is monotonically non-decreasing: the bit-setting
update of `__init__` and `__call__` (`setSamplesBits`), the update of the
Insert branch of `__add__` (`setItemBits`, hence `addElem`), and the OR
loop of the Merge branch never clear a set bit — for Merge, a bit set in
either operand is set in the result.  (`__call__` on its successful path
additionally starts from an all-false store, so its case is subsumed by
the `setSamplesBits` statement.) -/
theorem bits_monotone (H : String → Nat → Int) :
    (∀ (k : Int) (m : Nat) (bs : List Bool) (x : String) (i : Nat),
      bs.getD i false = true → (setItemBits H k m bs x).getD i false = true) ∧
    (∀ (k : Int) (m : Nat) (bs : List Bool) (samples : List String) (i : Nat),
      bs.getD i false = true → (setSamplesBits H k m bs samples).getD i false = true) ∧
    (∀ (f : bloomfilter) (x : String) (i : Nat),
      f.bitarray.getD i false = true → (addElem H f x).bitarray.getD i false = true) ∧
    (∀ (f₁ f₂ g : bloomfilter), addFilter f₁ f₂ = .ok g →
      f₁.bitarray.length = f₁.m → f₂.bitarray.length = f₂.m →
      ∀ i, (f₁.bitarray.getD i false = true ∨ f₂.bitarray.getD i false = true) →
        g.bitarray.getD i false = true) := by
  refine ⟨fun k m bs x i h => setItemBits_mono H k m bs x i h,
    fun k m bs samples i h => setSamplesBits_mono H k m bs samples i h,
    fun f x i h => setItemBits_mono H f.k f.m f.bitarray x i h,
    fun f₁ f₂ g hok hlen₁ hlen₂ i hi => ?_⟩
  obtain ⟨hk, hm, rfl⟩ := addFilter_ok hok
  show (orLoop f₁.m f₁.bitarray f₂.bitarray).getD i false = true
  rw [orLoop_getD]
  rcases hi with h₁ | h₂
  · by_cases hc : i < f₁.m ∧ i < f₁.bitarray.length
    · rw [if_pos hc, h₁, Bool.true_or]
    · rw [if_neg hc]
      exact h₁
  · have hi₂ : i < f₂.bitarray.length := getD_true_lt_length _ _ h₂
    have hilt : i < f₁.m := by rw [← hm, ← hlen₂]; exact hi₂
    rw [if_pos ⟨hilt, by rw [hlen₁]; exact hilt⟩, h₂, Bool.or_true]

/-- Witness for C7: a set bit survives `setItemBits`, `setSamplesBits`,
`addElem`, and (on both operands) a successful merge. -/
theorem bits_monotone_witness :
    ([true].getD 0 false = true →
      (setItemBits hDemo 1 1 [true] "a").getD 0 false = true) ∧
    (setSamplesBits hDemo 1 1 [true] ["a"]).getD 0 false = true ∧
    (addElem hDemo ⟨1, 1, [true], 1⟩ "a").bitarray.getD 0 false = true ∧
    (addFilter ⟨1, 2, [true, false], 1⟩ ⟨1, 2, [false, true], 1⟩ =
        .ok ⟨1, 2, [true, true], 2⟩) ∧
    ([true, true].getD 0 false = true ∧ [true, true].getD 1 false = true) := by
  have h := bits_monotone hDemo
  refine ⟨fun hb => h.1 1 1 [true] "a" 0 hb,
    h.2.1 1 1 [true] ["a"] 0 (by decide),
    h.2.2.1 ⟨1, 1, [true], 1⟩ "a" 0 (by decide), rfl, ?_, ?_⟩
  · exact h.2.2.2 ⟨1, 2, [true, false], 1⟩ ⟨1, 2, [false, true], 1⟩
      ⟨1, 2, [true, true], 2⟩ rfl (by decide) (by decide) 0 (Or.inl (by decide))
  · exact h.2.2.2 ⟨1, 2, [true, false], 1⟩ ⟨1, 2, [false, true], 1⟩
      ⟨1, 2, [true, true], 2⟩ rfl (by decide) (by decide) 1 (Or.inr (by decide))

/-- C6.  Insert is non-mutating and exact: `addElem H f x` (the Insert
branch of `__add__`, which deep-copies `self` before touching any bit, so
the original Python object is unmodified; in this value-semantics embedding
the input `f` is untouched by construction) returns a filter with the same
`k`, `m` and bit-array length, `size` incremented by exactly one, `x`'s `k`
hashed positions set, and every bit outside `x`'s positions unchanged. -/
theorem insert_immutable (H : String → Nat → Int) (f : bloomfilter) (x : String) :
    (addElem H f x).size = f.size + 1 ∧
    (addElem H f x).k = f.k ∧
    (addElem H f x).m = f.m ∧
    (addElem H f x).bitarray.length = f.bitarray.length ∧
    (∀ i, i ∉ itemPositions H f.k f.m x →
      (addElem H f x).bitarray.getD i false = f.bitarray.getD i false) ∧
    (0 < f.m → f.bitarray.length = f.m →
      ∀ seed < f.k.toNat,
        (addElem H f x).bitarray.getD (hashPos H f.m x seed) false = true) := by
  refine ⟨rfl, rfl, rfl, setItemBits_length H f.k f.m f.bitarray x,
    fun i hi => setItemBits_frame H f.k f.m f.bitarray x i hi,
    fun hm hlen seed hs => ?_⟩
  exact setItemBits_hit H f.k f.m f.bitarray x seed hs
    (by rw [hlen]; exact hashPos_lt H f.m hm x seed)

/-- Witness for C6 at a concrete filter (`k = 2`, `m = 5`, all bits clear)
and item `"ab"`, whose hashed positions under `hDemo` are `2` and `3`. -/
theorem insert_immutable_witness :
    (addElem hDemo ⟨2, 5, [false, false, false, false, false], 0⟩ "ab").size = 0 + 1 ∧
    (0 ∉ itemPositions hDemo 2 5 "ab" ∧
      (addElem hDemo ⟨2, 5, [false, false, false, false, false], 0⟩ "ab").bitarray.getD 0 false =
        [false, false, false, false, false].getD 0 false) ∧
    (0 < 5 ∧ (1 : Nat) < (2 : Int).toNat ∧
      (addElem hDemo ⟨2, 5, [false, false, false, false, false], 0⟩ "ab").bitarray.getD
        (hashPos hDemo 5 "ab" 1) false = true) := by
  have h := insert_immutable hDemo ⟨2, 5, [false, false, false, false, false], 0⟩ "ab"
  exact ⟨h.1, ⟨by decide, h.2.2.2.2.1 0 (by decide)⟩,
    ⟨by decide, by decide, h.2.2.2.2.2 (by decide) (by decide) 1 (by decide)⟩⟩

end BloomFilterPy

namespace BloomFilterPy

/-! ## Claims C4 and C5: Merge -/

/-- C4.  A successful merge (`__add__` on two merge-compatible filters)
returns a new filter whose `size` is the sum of the operands' sizes, whose
`k` and `m` are the (shared) operands' values, whose bit store is the
position-wise OR of the operands' bit stores, and which therefore still
contains every item contained in either operand. -/
theorem merge_correct (H : String → Nat → Int) (f₁ f₂ g : bloomfilter)
    (hok : addFilter f₁ f₂ = .ok g)
    (hlen₁ : f₁.bitarray.length = f₁.m) (hlen₂ : f₂.bitarray.length = f₂.m) :
    g.size = f₁.size + f₂.size ∧ g.k = f₁.k ∧ g.m = f₁.m ∧
    (∀ i, g.bitarray.getD i false =
      (f₁.bitarray.getD i false || f₂.bitarray.getD i false)) ∧
    (∀ x, contains H f₁ x = true → contains H g x = true) ∧
    (∀ x, contains H f₂ x = true → contains H g x = true) := by
  obtain ⟨hk, hm, rfl⟩ := addFilter_ok hok
  have hOR : ∀ i, (orLoop f₁.m f₁.bitarray f₂.bitarray).getD i false =
      (f₁.bitarray.getD i false || f₂.bitarray.getD i false) := by
    intro i
    rw [orLoop_getD]
    by_cases hc : i < f₁.m ∧ i < f₁.bitarray.length
    · rw [if_pos hc]
    · rw [if_neg hc]
      have h1 : f₁.bitarray.length ≤ i := by omega
      have h2 : f₂.bitarray.length ≤ i := by omega
      rw [getD_false_of_le f₁.bitarray i h1, getD_false_of_le f₂.bitarray i h2]
      rfl
  refine ⟨rfl, rfl, rfl, hOR, ?_, ?_⟩
  · intro x hx
    rw [contains_iff] at hx ⊢
    intro seed hs
    show (orLoop f₁.m f₁.bitarray f₂.bitarray).getD (hashPos H f₁.m x seed) false = true
    rw [hOR, hx seed hs, Bool.true_or]
  · intro x hx
    rw [contains_iff] at hx ⊢
    intro seed hs
    show (orLoop f₁.m f₁.bitarray f₂.bitarray).getD (hashPos H f₁.m x seed) false = true
    have hb := hx seed (by rw [hk]; exact hs)
    rw [hm] at hb
    rw [hOR, hb, Bool.or_true]

/-- Witness for C4 on a concrete compatible pair: `[true,false]` merged
with `[false,true]` gives `[true,true]`, sizes add, and items contained in
either operand are contained in the result. -/
theorem merge_correct_witness :
    (addFilter ⟨1, 2, [true, false], 1⟩ ⟨1, 2, [false, true], 3⟩ =
      .ok ⟨1, 2, [true, true], 4⟩) ∧
    (⟨1, 2, [true, true], 4⟩ : bloomfilter).size = 1 + 3 ∧
    ((⟨1, 2, [true, true], 4⟩ : bloomfilter).bitarray.getD 0 false =
      ([true, false].getD 0 false || [false, true].getD 0 false)) ∧
    contains hDemo ⟨1, 2, [true, false], 1⟩ "ab" = true ∧
    contains hDemo ⟨1, 2, [true, true], 4⟩ "ab" = true ∧
    contains hDemo ⟨1, 2, [false, true], 3⟩ "a" = true ∧
    contains hDemo ⟨1, 2, [true, true], 4⟩ "a" = true := by
  have h := merge_correct hDemo ⟨1, 2, [true, false], 1⟩ ⟨1, 2, [false, true], 3⟩
    ⟨1, 2, [true, true], 4⟩ rfl (by decide) (by decide)
  exact ⟨rfl, h.1, h.2.2.2.1 0, by decide, h.2.2.2.2.1 "ab" (by decide),
    by decide, h.2.2.2.2.2 "a" (by decide)⟩

/-- C5.  Merge (`__add__` on two filters) fails — with the
incompatible-filter `InputException` — exactly when the operands differ in
`k` (hash count) or in `m` (bit length); the checks precede any bit update,
and in this embedding a failing merge returns only the error, leaving both
operand values untouched.  Two filters constructed by `__init__` from
identical `(n, ε, k)` have identical derived `k` and `m` and therefore
always merge successfully. -/
theorem merge_compatibility :
    (∀ f₁ f₂ : bloomfilter,
      (∃ e, addFilter f₁ f₂ = .error e) ↔ (f₂.k ≠ f₁.k ∨ f₂.m ≠ f₁.m)) ∧
    (∀ (H : String → Nat → Int) (n epsilon : ℝ) (k : ℤ) (s₁ s₂ : List String)
        (g₁ g₂ : bloomfilter),
      construct H n s₁ epsilon k = .ok g₁ → construct H n s₂ epsilon k = .ok g₂ →
      ∃ g, addFilter g₁ g₂ = .ok g) := by
  constructor
  · intro f₁ f₂
    unfold addFilter
    by_cases h1 : f₂.k ≠ f₁.k
    · rw [if_pos h1]
      exact ⟨fun _ => Or.inl h1, fun _ => ⟨_, rfl⟩⟩
    · rw [if_neg h1]
      by_cases h2 : f₂.m ≠ f₁.m
      · rw [if_pos h2]
        exact ⟨fun _ => Or.inr h2, fun _ => ⟨_, rfl⟩⟩
      · rw [if_neg h2]
        constructor
        · rintro ⟨e, he⟩
          cases he
        · rintro (h | h)
          · exact absurd h h1
          · exact absurd h h2
  · intro H n epsilon k s₁ s₂ g₁ g₂ h₁ h₂
    obtain ⟨-, -, -, rfl⟩ := construct_ok h₁
    obtain ⟨-, -, -, rfl⟩ := construct_ok h₂
    refine ⟨{ mkBF H (kVal epsilon k) (mVal n epsilon).toNat s₁ with
              size := (mkBF H (kVal epsilon k) (mVal n epsilon).toNat s₁).size +
                (mkBF H (kVal epsilon k) (mVal n epsilon).toNat s₂).size
              bitarray := orLoop (mkBF H (kVal epsilon k) (mVal n epsilon).toNat s₁).m
                (mkBF H (kVal epsilon k) (mVal n epsilon).toNat s₁).bitarray
                (mkBF H (kVal epsilon k) (mVal n epsilon).toNat s₂).bitarray }, ?_⟩
    unfold addFilter
    rw [if_neg (fun h => h rfl), if_neg (fun h => h rfl)]

/-- Witness for C5: a concrete hash-count mismatch fails, and two filters
built by `__init__` from the same `(n, ε, k) = (1, 1/2, 0)` with different
sample lists merge successfully. -/
theorem merge_compatibility_witness :
    ((⟨2, 1, [false], 0⟩ : bloomfilter).k ≠ (⟨1, 1, [false], 0⟩ : bloomfilter).k) ∧
    (∃ e, addFilter ⟨1, 1, [false], 0⟩ ⟨2, 1, [false], 0⟩ = .error e) ∧
    construct hDemo 1 ["a"] (1/2) 0 =
      .ok (mkBF hDemo (kVal (1/2) 0) (mVal 1 (1/2)).toNat ["a"]) ∧
    construct hDemo 1 ["b"] (1/2) 0 =
      .ok (mkBF hDemo (kVal (1/2) 0) (mVal 1 (1/2)).toNat ["b"]) ∧
    (∃ g, addFilter (mkBF hDemo (kVal (1/2) 0) (mVal 1 (1/2)).toNat ["a"])
        (mkBF hDemo (kVal (1/2) 0) (mVal 1 (1/2)).toNat ["b"]) = .ok g) := by
  have h := merge_compatibility
  have hc₁ : construct hDemo 1 ["a"] (1/2) 0 =
      .ok (mkBF hDemo (kVal (1/2) 0) (mVal 1 (1/2)).toNat ["a"]) := by
    unfold construct
    rw [if_neg (by norm_num), if_neg (by norm_num)]
  have hc₂ : construct hDemo 1 ["b"] (1/2) 0 =
      .ok (mkBF hDemo (kVal (1/2) 0) (mVal 1 (1/2)).toNat ["b"]) := by
    unfold construct
    rw [if_neg (by norm_num), if_neg (by norm_num)]
  exact ⟨by decide, (h.1 _ _).mpr (Or.inl (by decide)), hc₁, hc₂,
    h.2 hDemo 1 (1/2) 0 ["a"] ["b"] _ _ hc₁ hc₂⟩

end BloomFilterPy

namespace BloomFilterPy

/-! ## Claim C3: Populate and its guard -/

/-- C3, counterexample: a filter freshly constructed by `__init__` with
valid parameters (`n = 1`, `ε = 1/2`, derived `k`) and no samples accepts a
first `__call__` with an empty element list — which sets no bit — and then
accepts a second `__call__` as well, instead of failing with
`AlreadyPopulated` as the claim asserts for any second Populate. -/
theorem second_populate_can_succeed :
    ∃ f₀ f₁ f₂ : bloomfilter,
      construct hDemo 1 [] (1/2) 0 = .ok f₀ ∧
      call hDemo f₀ [] = .ok f₁ ∧ call hDemo f₁ [] = .ok f₂ := by
  have hc : construct hDemo 1 [] (1/2) 0 =
      .ok (mkBF hDemo (kVal (1/2) 0) (mVal 1 (1/2)).toNat []) := by
    unfold construct
    rw [if_neg (by norm_num), if_neg (by norm_num)]
  have hbits : (mkBF hDemo (kVal (1/2) 0) (mVal 1 (1/2)).toNat []).bitarray =
      List.replicate (mVal 1 (1/2)).toNat false := rfl
  have hany : (mkBF hDemo (kVal (1/2) 0) (mVal 1 (1/2)).toNat []).bitarray.any id = false := by
    rw [hbits]
    exact any_replicate_false _
  have hcall : ∀ f : bloomfilter, f.bitarray.any id = false →
      call hDemo f [] = .ok { f with size := f.size + 0, bitarray := f.bitarray } := by
    intro f hf
    unfold call
    rw [if_neg (by rw [hf]; exact Bool.false_ne_true)]
    rfl
  refine ⟨_, _, _, hc, hcall _ hany, hcall _ (by simpa using hany)⟩

/-- C3 (amended).  `__call__` fails — with the `AlreadyPopulated`
`InputException` — exactly when the bit store has at least one set bit, and
the failing path returns only the error (no bit is modified); on success it
adds `len(samples)` to the size and sets all `k` hashed positions of every
element.  Consequently a second `__call__` on the same instance fails
whenever the first successful `__call__` inserted at least one element and
the filter has positive hash count and bit length (as every filter freshly
constructed with valid parameters does); the claim's stronger version —
that *any* second call fails — is false when the first call inserted an
empty element list, since then no bit was set. -/
theorem populate_guard (H : String → Nat → Int) (f : bloomfilter)
    (samples : List String) :
    ((∃ e, call H f samples = .error e) ↔ f.bitarray.any id = true) ∧
    (∀ g, call H f samples = .ok g →
      g.size = f.size + samples.length ∧
      g.k = f.k ∧ g.m = f.m ∧
      g.bitarray = setSamplesBits H f.k f.m f.bitarray samples ∧
      (0 < f.m → f.bitarray.length = f.m →
        ∀ x ∈ samples, ∀ seed < f.k.toNat,
          g.bitarray.getD (hashPos H f.m x seed) false = true) ∧
      (samples ≠ [] → 1 ≤ f.k → 0 < f.m → f.bitarray.length = f.m →
        ∀ samples2, ∃ e, call H g samples2 = .error e)) := by
  constructor
  · unfold call
    by_cases ha : f.bitarray.any id = true
    · rw [if_pos ha]
      exact ⟨fun _ => ha, fun _ => ⟨_, rfl⟩⟩
    · rw [if_neg ha]
      constructor
      · rintro ⟨e, he⟩
        cases he
      · intro h
        exact absurd h ha
  · intro g hok
    obtain ⟨-, rfl⟩ := call_ok hok
    have hset : ∀ x ∈ samples, ∀ seed < f.k.toNat, 0 < f.m → f.bitarray.length = f.m →
        (setSamplesBits H f.k f.m f.bitarray samples).getD (hashPos H f.m x seed) false =
          true := by
      intro x hx seed hs hm hlen
      exact setSamplesBits_hit H f.k f.m f.bitarray samples x seed hx hs
        (by rw [hlen]; exact hashPos_lt H f.m hm x seed)
    refine ⟨rfl, rfl, rfl, rfl, fun hm hlen x hx seed hs => hset x hx seed hs hm hlen, ?_⟩
    intro hne hk hm hlen samples2
    obtain ⟨x, hx⟩ : ∃ x, x ∈ samples := by
      cases samples with
      | nil => exact absurd rfl hne
      | cons s ss => exact ⟨s, List.mem_cons_self s ss⟩
    have hseed : (0 : Nat) < f.k.toNat := by omega
    have hbit := hset x hx 0 hseed hm hlen
    have hany : (setSamplesBits H f.k f.m f.bitarray samples).any id = true :=
      any_of_getD _ _ hbit
    unfold call
    rw [if_pos hany]
    exact ⟨_, rfl⟩

/-- Witness for C3 (amended) on a concrete empty filter with `k = 1`,
`m = 2`: a first `__call__` with `["a"]` succeeds and sets a bit, a second
`__call__` — even with an empty list — then fails. -/
theorem populate_guard_witness :
    (call hDemo ⟨1, 2, [false, false], 0⟩ ["a"] =
      .ok ⟨1, 2, [false, true], 1⟩) ∧
    (⟨1, 2, [false, true], 1⟩ : bloomfilter).size = 0 + 1 ∧
    (⟨1, 2, [false, true], 1⟩ : bloomfilter).bitarray.getD (hashPos hDemo 2 "a" 0) false =
      true ∧
    (∃ e, call hDemo ⟨1, 2, [false, true], 1⟩ [] = .error e) ∧
    (∃ e, call hDemo ⟨1, 2, [false, true], 1⟩ ["b"] = .error e) := by
  have h := (populate_guard hDemo ⟨1, 2, [false, false], 0⟩ ["a"]).2
    ⟨1, 2, [false, true], 1⟩ rfl
  exact ⟨rfl, h.1,
    h.2.2.2.2.1 (by decide) (by decide) "a" (by decide) 0 (by decide),
    h.2.2.2.2.2 (by decide) (by decide) (by decide) (by decide) [],
    h.2.2.2.2.2 (by decide) (by decide) (by decide) (by decide) ["b"]⟩

end BloomFilterPy

namespace BloomFilterPy

/-! ## Claims C9 and C8 -/

lemma setItemBits_nonpos {H : String → Nat → Int} {k : Int} {m : Nat}
    {bs : List Bool} {item : String} (hk : k ≤ 0) :
    setItemBits H k m bs item = bs := by
  unfold setItemBits
  rw [Int.toNat_of_nonpos hk]
  rfl

lemma setSamplesBits_nonpos {H : String → Nat → Int} {k : Int} {m : Nat}
    {bs : List Bool} {samples : List String} (hk : k ≤ 0) :
    setSamplesBits H k m bs samples = bs := by
  induction samples generalizing bs with
  | nil => rfl
  | cons s ss ih =>
    show setSamplesBits H k m (setItemBits H k m bs s) ss = bs
    rw [setItemBits_nonpos hk, ih]

/-- C9.  `__init__` validates only `n` and `epsilon` — it raises exactly
when `n ≤ 0` or `ε` lies outside `(0, 1)` — and never validates the
hash-count override: any nonzero `k`, including a negative one, is stored
as-is.  With a negative stored `k`, `range(self.k)` is empty, so
construction, Insert and Populate set no bit and `__contains__` returns
`True` for every item. -/
theorem construct_validation (H : String → Nat → Int) :
    (∀ (n epsilon : ℝ) (k : ℤ) (samples : List String),
      (∃ e, construct H n samples epsilon k = .error e) ↔
        (n ≤ 0 ∨ epsilon ≤ 0 ∨ 1 ≤ epsilon)) ∧
    (∀ (n epsilon : ℝ) (k : ℤ) (samples : List String) (f : bloomfilter),
      k ≠ 0 → construct H n samples epsilon k = .ok f → f.k = k) ∧
    (∀ (k : Int) (m : Nat) (samples : List String), k < 0 →
      (mkBF H k m samples).bitarray = List.replicate m false) ∧
    (∀ f : bloomfilter, f.k < 0 →
      (∀ x, (addElem H f x).bitarray = f.bitarray) ∧
      (∀ samples g, call H f samples = .ok g → g.bitarray = f.bitarray) ∧
      (∀ x, contains H f x = true)) := by
  refine ⟨fun n epsilon k samples => ?_, fun n epsilon k samples f hk hok => ?_,
    fun k m samples hk => ?_, fun f hk => ?_⟩
  · unfold construct
    by_cases h1 : n ≤ 0
    · rw [if_pos h1]
      exact ⟨fun _ => Or.inl h1, fun _ => ⟨_, rfl⟩⟩
    · rw [if_neg h1]
      by_cases h2 : epsilon ≤ 0 ∨ 1 ≤ epsilon
      · rw [if_pos h2]
        exact ⟨fun _ => Or.inr h2, fun _ => ⟨_, rfl⟩⟩
      · rw [if_neg h2]
        constructor
        · rintro ⟨e, he⟩
          cases he
        · rintro (h | h)
          · exact absurd h h1
          · exact absurd h h2
  · obtain ⟨-, -, -, rfl⟩ := construct_ok hok
    show kVal epsilon k = k
    unfold kVal
    rw [if_neg hk]
  · show setSamplesBits H k m (List.replicate m false) samples = List.replicate m false
    exact setSamplesBits_nonpos hk.le
  · refine ⟨fun x => ?_, fun samples g hok => ?_, fun x => ?_⟩
    · show setItemBits H f.k f.m f.bitarray x = f.bitarray
      exact setItemBits_nonpos hk.le
    · obtain ⟨-, rfl⟩ := call_ok hok
      show setSamplesBits H f.k f.m f.bitarray samples = f.bitarray
      exact setSamplesBits_nonpos hk.le
    · unfold contains
      rw [Int.toNat_of_nonpos hk.le]
      rfl

/-- Witness for C9: `n = -1` is rejected; `k = -5` is accepted by a valid
construction and stored; on a concrete filter with `k = -5`, Insert and
Populate leave the (all-false) bit store unchanged and `__contains__`
answers `true`. -/
theorem construct_validation_witness :
    (∃ e, construct hDemo (-1) [] (1/2) 0 = .error e) ∧
    ((-5 : ℤ) ≠ 0 ∧
      construct hDemo 1 ["a"] (1/2) (-5) =
        .ok (mkBF hDemo (kVal (1/2) (-5)) (mVal 1 (1/2)).toNat ["a"]) ∧
      (mkBF hDemo (kVal (1/2) (-5)) (mVal 1 (1/2)).toNat ["a"]).k = -5) ∧
    ((-5 : ℤ) < 0 ∧ (mkBF hDemo (-5) 2 ["a"]).bitarray = List.replicate 2 false) ∧
    ((⟨-5, 2, [false, false], 0⟩ : bloomfilter).k < 0 ∧
      (addElem hDemo ⟨-5, 2, [false, false], 0⟩ "a").bitarray =
        (⟨-5, 2, [false, false], 0⟩ : bloomfilter).bitarray ∧
      contains hDemo ⟨-5, 2, [false, false], 0⟩ "a" = true) := by
  have h := construct_validation hDemo
  have hc : construct hDemo 1 ["a"] (1/2) (-5) =
      .ok (mkBF hDemo (kVal (1/2) (-5)) (mVal 1 (1/2)).toNat ["a"]) := by
    unfold construct
    rw [if_neg (by norm_num), if_neg (by norm_num)]
  refine ⟨(h.1 (-1) (1/2) 0 []).mpr (Or.inl (by norm_num)),
    ⟨by decide, hc, h.2.1 1 (1/2) (-5) ["a"] _ (by decide) hc⟩,
    ⟨by decide, h.2.2.1 (-5) 2 ["a"] (by decide)⟩,
    ⟨by decide, (h.2.2.2 ⟨-5, 2, [false, false], 0⟩ (by decide)).1 "a",
      (h.2.2.2 ⟨-5, 2, [false, false], 0⟩ (by decide)).2.2 "a"⟩⟩

/-- C8.  `actual_epsilon` agrees with the spec formula: it returns exactly
`0` when the element count is `0`, and otherwise
`0.5 ^ ((m / size) · ln 2)` — equivalently `exp(−(m/size)·(ln 2)²)`. -/
theorem actual_epsilon_spec (f : bloomfilter) :
    actual_epsilon f = specActualErrorRate f ∧
    (f.size = 0 → actual_epsilon f = 0) ∧
    (f.size ≠ 0 →
      actual_epsilon f = (0.5 : ℝ) ^ (((f.m : ℝ) / (f.size : ℝ)) * Real.log 2) ∧
      actual_epsilon f = Real.exp (-(((f.m : ℝ) / (f.size : ℝ)) * (Real.log 2) ^ 2))) := by
  unfold actual_epsilon specActualErrorRate
  by_cases hs : f.size = 0
  · rw [if_neg (not_not_intro hs), if_pos hs]
    exact ⟨rfl, fun _ => rfl, fun h => absurd hs h⟩
  · rw [if_pos hs, if_neg hs]
    refine ⟨rfl, fun h => absurd h hs, fun _ => ⟨rfl, ?_⟩⟩
    rw [Real.rpow_def_of_pos (by norm_num : (0:ℝ) < 0.5)]
    have hlog : Real.log 0.5 = - Real.log 2 := by
      rw [show (0.5 : ℝ) = 2⁻¹ by norm_num, Real.log_inv]
    rw [hlog]
    congr 1
    ring

/-- Witness for C8: a size-0 filter reports error rate exactly `0`; a
size-2 filter reports the closed-form value. -/
theorem actual_epsilon_spec_witness :
    actual_epsilon ⟨1, 2, [false, false], 0⟩ = 0 ∧
    ((⟨1, 2, [true, true], 2⟩ : bloomfilter).size ≠ 0 ∧
      actual_epsilon ⟨1, 2, [true, true], 2⟩ =
        (0.5 : ℝ) ^ ((((2 : Nat) : ℝ) / ((2 : Nat) : ℝ)) * Real.log 2)) :=
  ⟨(actual_epsilon_spec ⟨1, 2, [false, false], 0⟩).2.1 rfl,
    by decide,
    ((actual_epsilon_spec ⟨1, 2, [true, true], 2⟩).2.2 (by decide)).1⟩

end BloomFilterPy
